import Mathlib

/-!
Shallow embedding of the camera choreography core of `demosnap`
(`src/client/camera-core.ts`): the config builder `buildCamConfig`,
the keyframe builder `buildCamKeys` and the sampler `sampleCamera`.

Numbers are embedded as rationals (the source computes with JS doubles on
small decimal constants; no rounding-dependent branch appears in the
claims under study).  `Math.hypot(dx,dy) < d` is embedded by the exact
equivalent comparison on squares (`0 < d ∧ dx^2+dy^2 < d^2`), which agrees
with the real-number comparison for all inputs.  Optional JS fields are
`Option` values; the JS `-Infinity` sentinels are `Option` `none`.
-/

namespace Demosnap

/-- `TimelineEvent` from camera-core.ts: timestamp, semantic type and
optional normalized center / box size. -/
structure TimelineEvent where
  t : ℚ
  type : String
  x : Option ℚ := none
  y : Option ℚ := none
  w : Option ℚ := none
  h : Option ℚ := none
deriving Repr, DecidableEq

/-- `CamKey` from camera-core.ts: a derived camera keyframe. -/
structure CamKey where
  t : ℚ
  cx : ℚ
  cy : ℚ
  zoom : ℚ
  cut : Bool
deriving Repr, DecidableEq

/-- `CamConfig` from camera-core.ts. -/
structure CamConfig where
  leadMs : ℚ
  clusterMs : ℚ
  maxZoom : ℚ
  posLerp : ℚ
  zoomLerp : ℚ
  movementDeadZone : ℚ
  exposureCut : ℚ
  exposureLerp : ℚ
  settleSeconds : ℚ
  idleDriftAmp : ℚ
  idlePushInZ : ℚ
  dedupeDist : ℚ
  dedupeZoomDelta : ℚ
  cutMoveThreshold : ℚ
  cutZoomThreshold : ℚ
deriving Repr, DecidableEq

/-- `buildCamConfig` from camera-core.ts: base constants, with the
`aggressive` / `cinematic` overrides applied (the source mutates a fresh
record; the embedding writes the final field values). -/
def buildCamConfig (style : String) : CamConfig :=
  if style = "aggressive" then
    { leadMs := 900, clusterMs := 160, maxZoom := 41/10, posLerp := 22/100,
      zoomLerp := 18/100, movementDeadZone := 18/1000, exposureCut := 108/100,
      exposureLerp := 6/100, settleSeconds := 8, idleDriftAmp := 22/10,
      idlePushInZ := 10, dedupeDist := 22/1000, dedupeZoomDelta := 18/100,
      cutMoveThreshold := 6/100, cutZoomThreshold := 28/100 }
  else if style = "cinematic" then
    { leadMs := 1400, clusterMs := 950, maxZoom := 29/10, posLerp := 45/1000,
      zoomLerp := 5/100, movementDeadZone := 18/1000, exposureCut := 108/100,
      exposureLerp := 6/100, settleSeconds := 8, idleDriftAmp := 32/10,
      idlePushInZ := 10, dedupeDist := 18/1000, dedupeZoomDelta := 18/100,
      cutMoveThreshold := 9/100, cutZoomThreshold := 34/100 }
  else
    { leadMs := 900, clusterMs := 600, maxZoom := 32/10, posLerp := 65/1000,
      zoomLerp := 7/100, movementDeadZone := 18/1000, exposureCut := 108/100,
      exposureLerp := 6/100, settleSeconds := 8, idleDriftAmp := 5,
      idlePushInZ := 10, dedupeDist := 22/1000, dedupeZoomDelta := 18/100,
      cutMoveThreshold := 6/100, cutZoomThreshold := 28/100 }

/-- buildCamKeys step 1: prune `load-progress` events closer than 450ms to
the last accepted one.  The accumulator is the last accepted
`load-progress` timestamp (`none` embeds the `-Infinity` start value, for
which the `< 450` gap test is false). -/
def filterProgress : Option ℚ → List TimelineEvent → List TimelineEvent
  | _, [] => []
  | lastT, ev :: rest =>
    if ev.type = "load-progress" then
      match lastT with
      | some p =>
        if ev.t - p < 450 then filterProgress (some p) rest
        else ev :: filterProgress (some ev.t) rest
      | none => ev :: filterProgress (some ev.t) rest
    else ev :: filterProgress lastT rest

/-- The per-style base zoom table (the `switch` statements of
camera-core.ts); unmatched types keep the initial `z = 1.25`. -/
def baseZoom (style : String) (ty : String) : ℚ :=
  if style = "cinematic" then
    if ty = "establish" then 115/100
    else if ty = "load-start" then 124/100
    else if ty = "load-progress" then 126/100
    else if ty = "load-complete" then 132/100
    else if ty = "result-focus" then 148/100
    else if ty = "prefocus" then 132/100
    else if ty = "click" then 150/100
    else if ty = "type" then 145/100
    else if ty = "press" then 155/100
    else if ty = "wait" then 128/100
    else if ty = "broll-focus" then 126/100
    else if ty = "postclick" then 148/100
    else 125/100
  else
    if ty = "establish" then 112/100
    else if ty = "load-start" then 122/100
    else if ty = "load-progress" then 125/100
    else if ty = "load-complete" then 130/100
    else if ty = "result-focus" then 155/100
    else if ty = "prefocus" then 135/100
    else if ty = "click" then 170/100
    else if ty = "type" then 152/100
    else if ty = "press" then 185/100
    else if ty = "wait" then 140/100
    else 125/100

/-- The flat aggressive-style zoom boost for click/type/press. -/
def aggBoost (ty : String) : ℚ :=
  if ty = "click" then 55/100
  else if ty = "type" then 45/100
  else if ty = "press" then 65/100
  else 0

/-- buildCamKeys steps 2-3: the zoom multiplier of one event - base table,
aggressive boost, area scaling when the box fields are truthy
(`if (ev.w && ev.h)`: present and nonzero), then the `maxZoom` clamp. -/
def eventZoom (style : String) (CAM : CamConfig) (ev : TimelineEvent) : ℚ :=
  let z0 := baseZoom style ev.type
  let z1 := if style = "aggressive" then z0 + aggBoost ev.type else z0
  let z2 :=
    match ev.w, ev.h with
    | some w, some h =>
      if w ≠ 0 ∧ h ≠ 0 then
        z1 * min (28/10) (1 + (1/4 - min (1/4) (w * h)) * (38/10))
      else z1
    | _, _ => z1
  min z2 CAM.maxZoom

/-- buildCamKeys step 4 (cut logic) for one event; `lastCutT` is the last
cinematic cut timestamp (`none` embeds `-Infinity`, for which the
`> MIN_CUT_GAP` test is true). -/
def eventCut (style : String) (CAM : CamConfig) (lastCutT : Option ℚ)
    (ev : TimelineEvent) : Bool :=
  if style = "cinematic" then
    let actionable : Bool :=
      ev.type = "click" ∨ ev.type = "result-focus" ∨ ev.type = "press"
    let gapOk : Bool :=
      match lastCutT with
      | none => true
      | some p => decide (CAM.clusterMs * (21/10) < ev.t - p)
    if ev.type = "establish" then false else actionable && gapOk
  else if style = "aggressive" then decide (ev.type ≠ "prefocus")
  else decide (ev.type = "click")

/-- buildCamKeys step 5: the key pushed for one positioned event,
including the cinematic rule-of-thirds framing bias. -/
def keyOfEvent (style : String) (CAM : CamConfig) (shotIndex : ℕ)
    (lastCutT : Option ℚ) (ev : TimelineEvent) (x y : ℚ) : CamKey :=
  let z := eventZoom style CAM ev
  let cut := eventCut style CAM lastCutT ev
  if style = "cinematic" ∧ ev.type ≠ "establish" then
    let biasX : ℚ := if shotIndex % 2 = 0 then -(7/100) else 7/100
    let biasY : ℚ := if shotIndex % 3 = 0 then -(5/100) else 4/100
    { t := ev.t, cx := min (85/100) (max (15/100) (x + biasX)),
      cy := min (85/100) (max (15/100) (y + biasY)), zoom := z, cut := cut }
  else
    { t := ev.t, cx := x, cy := y, zoom := z, cut := cut }

/-- The main key-emitting loop of buildCamKeys: skips unpositioned events
(without advancing `shotIndex`), emits `keyOfEvent` otherwise, and threads
the cinematic `lastCutT` state. -/
def keysOf (style : String) (CAM : CamConfig) :
    ℕ → Option ℚ → List TimelineEvent → List CamKey
  | _, _, [] => []
  | shotIndex, lastCutT, ev :: rest =>
    match ev.x, ev.y with
    | some x, some y =>
      let cut := eventCut style CAM lastCutT ev
      let lastCutT' := if style = "cinematic" ∧ cut then some ev.t else lastCutT
      keyOfEvent style CAM shotIndex lastCutT ev x y ::
        keysOf style CAM (shotIndex + 1) lastCutT' rest
    | _, _ => keysOf style CAM shotIndex lastCutT rest

/-- The merge assignment shared by the clustering and dedupe passes:
midpoint position, max zoom, OR of cut flags, keeping the earlier `t`. -/
def mergeKeys (p k : CamKey) : CamKey :=
  { t := p.t, cx := (p.cx + k.cx) / 2, cy := (p.cy + k.cy) / 2,
    zoom := max p.zoom k.zoom, cut := p.cut || k.cut }

/-- The forward scan-and-absorb loop shared by the clustering and dedupe
passes of buildCamKeys: each key either merges (by `mergeKeys`) into the
previously accepted key or is accepted.  `acc` holds the accepted keys in
reverse. -/
def absorbFold (cond : CamKey → CamKey → Bool) :
    List CamKey → List CamKey → List CamKey
  | acc, [] => acc.reverse
  | [], k :: rest => absorbFold cond [k] rest
  | p :: tl, k :: rest =>
    if cond p k then absorbFold cond (mergeKeys p k :: tl) rest
    else absorbFold cond (k :: p :: tl) rest

/-- buildCamKeys step 6 (temporal clustering): merge keys starting less
than `c` after the previously accepted key. -/
def clusterKeys (c : ℚ) (l : List CamKey) : List CamKey :=
  absorbFold (fun p k => decide (k.t - p.t < c)) [] l

/-- `Math.hypot dx dy < d`, embedded exactly via squares (the hypotenuse
is nonnegative, so the comparison holds iff `0 < d` and
`dx^2 + dy^2 < d^2`). -/
def hypotLt (dx dy d : ℚ) : Bool :=
  decide (0 < d ∧ dx ^ 2 + dy ^ 2 < d ^ 2)

/-- The merge test of the spatial-dedupe pass (step 8), including its
`style !== aggressive` guard. -/
def dedupeCond (style : String) (CAM : CamConfig) (p k : CamKey) : Bool :=
  (!(style == "aggressive")) &&
    hypotLt (k.cx - p.cx) (k.cy - p.cy) CAM.dedupeDist &&
    decide (|k.zoom - p.zoom| < CAM.dedupeZoomDelta)

/-- The cut-threshold test of step 9: positional distance at least
`cutMoveThreshold` (i.e. not `hypot < threshold`) or zoom delta at least
`cutZoomThreshold`. -/
def shouldCut (CAM : CamConfig) (a b : CamKey) : Bool :=
  (!hypotLt (b.cx - a.cx) (b.cy - a.cy) CAM.cutMoveThreshold) ||
    decide (CAM.cutZoomThreshold ≤ |b.zoom - a.zoom|)

/-- buildCamKeys step 9 (cut-threshold gating): each key's cut flag is
kept only when `shouldCut` holds against its predecessor. -/
def sanitizeCuts (CAM : CamConfig) : List CamKey → List CamKey
  | [] => []
  | [a] => [a]
  | a :: b :: rest =>
    a :: sanitizeCuts CAM ({ b with cut := b.cut && shouldCut CAM a b } :: rest)
termination_by l => l.length

/-- buildCamKeys step 7: the implicit centered key at t=0 when the first
clustered key starts later than 0. -/
def withPlaceholder : List CamKey → List CamKey
  | [] => []
  | c :: rest =>
    if 0 < c.t then ⟨0, 1/2, 1/2, 1, false⟩ :: c :: rest else c :: rest

/-- Keys emitted from the (filtered, positioned) events. -/
def stageKeys (timeline : List TimelineEvent) (style : String)
    (CAM : CamConfig) : List CamKey :=
  keysOf style CAM 0 none (filterProgress none timeline)

/-- The keys sorted non-decreasing by t (`keys.sort((a,b)=>a.t-b.t)`,
stable). -/
def stageSorted (timeline : List TimelineEvent) (style : String)
    (CAM : CamConfig) : List CamKey :=
  (stageKeys timeline style CAM).mergeSort (fun a b => decide (a.t ≤ b.t))

/-- The clustered keys. -/
def stageClustered (timeline : List TimelineEvent) (style : String)
    (CAM : CamConfig) : List CamKey :=
  clusterKeys CAM.clusterMs (stageSorted timeline style CAM)

/-- Whether the implicit t=0 placeholder is prepended. -/
def hasPlaceholder (timeline : List TimelineEvent) (style : String)
    (CAM : CamConfig) : Bool :=
  match stageClustered timeline style CAM with
  | [] => false
  | c :: _ => decide (0 < c.t)

/-- Clustered keys, placeholder, then the spatial-dedupe pass (whose merge
test is never satisfied for the aggressive style). -/
def stageDeduped (timeline : List TimelineEvent) (style : String)
    (CAM : CamConfig) : List CamKey :=
  absorbFold (dedupeCond style CAM) []
    (withPlaceholder (stageClustered timeline style CAM))

/-- `buildCamKeys` from camera-core.ts. -/
def buildCamKeys (timeline : List TimelineEvent) (style : String)
    (CAM : CamConfig) : List CamKey :=
  if style = "aggressive" then stageDeduped timeline style CAM
  else sanitizeCuts CAM (stageDeduped timeline style CAM)

/-- The symmetric cubic ease shared by every interpolation branch of
sampleCamera. -/
def easeQ (k : ℚ) : ℚ :=
  if k < 1/2 then 4 * k ^ 3 else 1 - (-2 * k + 2) ^ 3 / 2

/-- The greatest index whose key starts at or before `ms` (the backwards
`for` loop at the end of sampleCamera). -/
def lastLeIdx (ms : ℚ) : List CamKey → Option ℕ
  | [] => none
  | k :: rest =>
    match lastLeIdx ms rest with
    | some j => some (j + 1)
    | none => if k.t ≤ ms then some 0 else none

/-- The full-span interpolation fallthrough of sampleCamera (its final
loop and default return). -/
def sampleTail (camKeys : List CamKey) (k0 : CamKey) (ms : ℚ) : CamKey :=
  match lastLeIdx ms camKeys with
  | some i =>
    let a := camKeys.getD i k0
    match camKeys.get? (i + 1) with
    | none => a
    | some b =>
      let span := b.t - a.t
      let k := if 0 < span then min 1 ((ms - a.t) / span) else 0
      let e := easeQ k
      { t := a.t, cx := a.cx + (b.cx - a.cx) * e, cy := a.cy + (b.cy - a.cy) * e,
        zoom := a.zoom + (b.zoom - a.zoom) * e,
        cut := b.cut && decide ((9:ℚ)/10 < k) }
  | none => k0

/-- `sampleCamera` from camera-core.ts. -/
def sampleCamera (camKeys : List CamKey) (style : String) (ms : ℚ)
    (CAM : CamConfig) : CamKey :=
  match camKeys with
  | [] => ⟨0, 1/2, 1/2, 1, false⟩
  | k0 :: _ =>
    if style = "aggressive" then
      let cur := ((camKeys.takeWhile (fun k => decide (k.t ≤ ms))).getLast?).getD k0
      let idx := camKeys.indexOf cur
      match camKeys.get? (idx + 1) with
      | some nxt =>
        if nxt.cut then
          if ms < nxt.t then { cur with cut := false }
          else if nxt.t ≤ ms ∧ ms < nxt.t + 140 then
            let kk := (ms - nxt.t) / 140
            let e := easeQ kk
            { t := nxt.t, cx := nxt.cx, cy := nxt.cy,
              zoom := nxt.zoom * (1 + (8:ℚ)/100 * (1 - e)), cut := true }
          else cur
        else
          if nxt.t - 420 ≤ ms ∧ ms < nxt.t then
            let k := 1 - (nxt.t - ms) / 420
            let e := easeQ k
            { t := cur.t, cx := cur.cx + (nxt.cx - cur.cx) * e,
              cy := cur.cy + (nxt.cy - cur.cy) * e,
              zoom := cur.zoom + (nxt.zoom - cur.zoom) * e, cut := false }
          else cur
      | none => cur
    else
      let lead := CAM.leadMs
      match camKeys.find? (fun k => decide (ms < k.t)) with
      | some next =>
        let pi := camKeys.indexOf next
        let prev := if 1 ≤ pi then camKeys.getD (pi - 1) k0 else k0
        if next.t - lead ≤ ms ∧ ms < next.t then
          let k := 1 - (next.t - ms) / lead
          let e := easeQ k
          { t := prev.t, cx := prev.cx + (next.cx - prev.cx) * e,
            cy := prev.cy + (next.cy - prev.cy) * e,
            zoom := prev.zoom + (next.zoom - prev.zoom) * e * (85/100),
            cut := false }
        else sampleTail camKeys k0 ms
      | none => sampleTail camKeys k0 ms

/-! ### Evaluated style configs -/

theorem camDefault : buildCamConfig "default" =
    ⟨900, 600, 32/10, 65/1000, 7/100, 18/1000, 108/100, 6/100, 8, 5, 10,
      22/1000, 18/100, 6/100, 28/100⟩ := rfl

theorem camAggressive : buildCamConfig "aggressive" =
    ⟨900, 160, 41/10, 22/100, 18/100, 18/1000, 108/100, 6/100, 8, 22/10, 10,
      22/1000, 18/100, 6/100, 28/100⟩ := rfl

theorem camCinematic : buildCamConfig "cinematic" =
    ⟨1400, 950, 29/10, 45/1000, 5/100, 18/1000, 108/100, 6/100, 8, 32/10, 10,
      18/1000, 18/100, 9/100, 34/100⟩ := rfl

/-! ### Generic list helpers -/

theorem find?_prefix_false {α} (p : α → Bool) :
    ∀ (pre : List α) (x : α) (post : List α),
      (∀ k ∈ pre, p k = false) → p x = true →
      (pre ++ x :: post).find? p = some x := by
  intro pre
  induction pre with
  | nil => intro x post _ hx; simpa using List.find?_cons_of_pos _ hx
  | cons a l ih =>
    intro x post hpre hx
    have ha : ¬ p a = true := by simp [hpre a (by simp)]
    simpa [List.find?_cons_of_neg _ ha] using
      ih x post (fun k hk => hpre k (by simp [hk])) hx

theorem indexOf_append_not_mem {α} [DecidableEq α] :
    ∀ (pre : List α) (x : α) (post : List α), x ∉ pre →
      (pre ++ x :: post).indexOf x = pre.length := by
  intro pre
  induction pre with
  | nil => intro x post _; simp [List.indexOf_cons_self]
  | cons a l ih =>
    intro x post hx
    have hax : a ≠ x := fun h => hx (by simp [h])
    have := ih x post (fun h => hx (by simp [h]))
    simp only [List.cons_append, List.indexOf_cons_ne _ hax, this,
      List.length_cons, Nat.succ_eq_add_one]

theorem getD_last_eq {α} (d : α) :
    ∀ l : List α, l.getD (l.length - 1) d = l.getLast?.getD d := by
  intro l
  induction l with
  | nil => simp
  | cons a l ih =>
    cases l with
    | nil => simp
    | cons b t =>
      simpa [List.getD_cons_succ, List.getLast?_cons_cons] using ih

/-! ### Helpers about the sampler's scan loops -/

theorem lastLeIdx_none (ms : ℚ) :
    ∀ l : List CamKey, (∀ k ∈ l, ms < k.t) → lastLeIdx ms l = none := by
  intro l
  induction l with
  | nil => simp [lastLeIdx]
  | cons k rest ih =>
    intro h
    have hr := ih (fun k' hk' => h k' (by simp [hk']))
    have hk : ¬ k.t ≤ ms := not_le.mpr (h k (by simp))
    simp [lastLeIdx, hr, hk]

theorem lastLeIdx_append (ms : ℚ) :
    ∀ (pre : List CamKey) (a : CamKey) (post : List CamKey),
      a.t ≤ ms → (∀ k ∈ post, ms < k.t) →
      lastLeIdx ms (pre ++ a :: post) = some pre.length := by
  intro pre
  induction pre with
  | nil =>
    intro a post ha hpost
    simp [lastLeIdx, lastLeIdx_none ms post hpost, ha]
  | cons p l ih =>
    intro a post ha hpost
    simp [lastLeIdx, ih a post ha hpost]

/-! ### Structural lemmas about the scan-and-absorb passes -/

theorem mergeKeys_t (p k : CamKey) : (mergeKeys p k).t = p.t := rfl

theorem absorbFold_nil (cond : CamKey → CamKey → Bool) (acc : List CamKey) :
    absorbFold cond acc [] = acc.reverse := by
  cases acc <;> rfl

theorem absorbFold_nil_cons (cond : CamKey → CamKey → Bool)
    (k : CamKey) (rest : List CamKey) :
    absorbFold cond [] (k :: rest) = absorbFold cond [k] rest := rfl

theorem absorbFold_cons_cons (cond : CamKey → CamKey → Bool)
    (p : CamKey) (tl : List CamKey) (k : CamKey) (rest : List CamKey) :
    absorbFold cond (p :: tl) (k :: rest) =
      if cond p k then absorbFold cond (mergeKeys p k :: tl) rest
      else absorbFold cond (k :: p :: tl) rest := rfl

/-- The timestamps an absorb pass emits beyond its accumulator form a
sublist of the timestamps of its input (merges keep the earlier `t`,
accepts copy it). -/
theorem absorbFold_map_t (cond : CamKey → CamKey → Bool) :
    ∀ (l acc : List CamKey), ∃ s : List ℚ,
      s.Sublist (l.map fun k => k.t) ∧
      (absorbFold cond acc l).map (fun k => k.t) =
        (acc.reverse.map fun k => k.t) ++ s := by
  intro l
  induction l with
  | nil =>
    intro acc
    exact ⟨[], List.nil_sublist _, by simp [absorbFold_nil]⟩
  | cons k rest ih =>
    intro acc
    match acc with
    | [] =>
      obtain ⟨s, hs, he⟩ := ih [k]
      refine ⟨k.t :: s, List.Sublist.cons₂ _ hs, ?_⟩
      rw [absorbFold_nil_cons, he]
      simp
    | p :: tl =>
      by_cases hc : cond p k
      · obtain ⟨s, hs, he⟩ := ih (mergeKeys p k :: tl)
        refine ⟨s, hs.cons _, ?_⟩
        rw [absorbFold_cons_cons, if_pos hc, he]
        simp [mergeKeys]
      · obtain ⟨s, hs, he⟩ := ih (k :: p :: tl)
        refine ⟨k.t :: s, List.Sublist.cons₂ _ hs, ?_⟩
        rw [absorbFold_cons_cons, if_neg hc, he]
        simp

/-- An absorb pass started on a non-empty accumulator emits, as its first
key, one with the timestamp of the accumulator's bottom element (merges
never touch that timestamp). -/
theorem absorbFold_head_t (cond : CamKey → CamKey → Bool) :
    ∀ (l acc : List CamKey), acc ≠ [] →
      (absorbFold cond acc l).head?.map (fun k => k.t) =
        acc.getLast?.map (fun k => k.t) := by
  intro l
  induction l with
  | nil =>
    intro acc _
    rw [absorbFold_nil, List.head?_reverse]
  | cons k rest ih =>
    intro acc hacc
    match acc with
    | [] => exact absurd rfl hacc
    | p :: tl =>
      by_cases hc : cond p k
      · rw [absorbFold_cons_cons, if_pos hc, ih _ (by simp)]
        cases tl with
        | nil => simp [mergeKeys]
        | cons q tl' => simp [List.getLast?_cons_cons]
      · rw [absorbFold_cons_cons, if_neg hc, ih _ (by simp)]
        simp [List.getLast?_cons_cons]

/-- An absorb pass whose merge test never fires is the identity (it merely
copies every key). -/
theorem absorbFold_of_false (cond : CamKey → CamKey → Bool)
    (hc : ∀ p k, cond p k = false) :
    ∀ (l acc : List CamKey), absorbFold cond acc l = acc.reverse ++ l := by
  intro l
  induction l with
  | nil => intro acc; simp [absorbFold_nil]
  | cons k rest ih =>
    intro acc
    match acc with
    | [] =>
      rw [absorbFold_nil_cons, ih [k]]
      simp
    | p :: tl =>
      rw [absorbFold_cons_cons, if_neg (by simp [hc p k]), ih]
      simp

/-- Clustering a time-sorted key list leaves consecutive emitted keys at
least `c` apart in `t`. -/
theorem clusterKeys_chain (c : ℚ) :
    ∀ (l acc : List CamKey),
      ((l.map fun k => k.t).Pairwise (· ≤ ·)) →
      ((acc.map fun k => k.t).Chain' fun a b => c ≤ a - b) →
      (∀ p ∈ acc.head?, ∀ k ∈ l, p.t ≤ k.t) →
      ((absorbFold (fun p k => decide (k.t - p.t < c)) acc l).map fun k => k.t).Chain'
        fun a b => c ≤ b - a := by
  intro l
  induction l with
  | nil =>
    intro acc _ hchain _
    rw [absorbFold_nil, List.map_reverse]
    exact List.chain'_reverse.mpr hchain
  | cons k rest ih =>
    intro acc hl hchain hacc
    have hl' : ((rest.map fun k => k.t).Pairwise (· ≤ ·)) :=
      (List.pairwise_cons.mp (by simpa using hl)).2
    have hle : ∀ k' ∈ rest, k.t ≤ k'.t := by
      intro k' hk'
      exact (List.pairwise_cons.mp (by simpa using hl)).1 k'.t
        (List.mem_map_of_mem _ hk')
    match acc with
    | [] =>
      rw [absorbFold_nil_cons]
      exact ih [k] hl' (by simp) (by simpa using hle)
    | p :: tl =>
      have hpk : ∀ k' ∈ k :: rest, p.t ≤ k'.t := by
        simpa using hacc p rfl
      by_cases hc : decide (k.t - p.t < c) = true
      · rw [absorbFold_cons_cons, if_pos hc]
        refine ih (mergeKeys p k :: tl) hl' ?_ ?_
        · simpa [mergeKeys_t] using hchain
        · intro q hq k' hk'
          simp only [List.head?_cons, Option.mem_def, Option.some.injEq] at hq
          subst hq
          rw [mergeKeys_t]
          exact hpk k' (by simp [hk'])
      · rw [absorbFold_cons_cons, if_neg hc]
        refine ih (k :: p :: tl) hl' ?_ ?_
        · rw [List.map_cons, List.map_cons]
          rw [List.chain'_cons]
          refine ⟨?_, by simpa using hchain⟩
          have := not_lt.mp (by simpa using hc)
          linarith
        · intro q hq k' hk'
          simp only [List.head?_cons, Option.mem_def, Option.some.injEq] at hq
          subst hq
          exact hle k' hk'

/-- An absorb pass never raises zoom above a bound that holds for its
input and accumulator (merged keys take the max of two zooms). -/
theorem absorbFold_zoom_le (cond : CamKey → CamKey → Bool) (M : ℚ) :
    ∀ (l acc : List CamKey),
      (∀ k ∈ l, k.zoom ≤ M) → (∀ k ∈ acc, k.zoom ≤ M) →
      ∀ k ∈ absorbFold cond acc l, k.zoom ≤ M := by
  intro l
  induction l with
  | nil =>
    intro acc _ hacc k hk
    rw [absorbFold_nil] at hk
    exact hacc k (List.mem_reverse.mp hk)
  | cons k rest ih =>
    intro acc hl hacc k' hk'
    have hlr : ∀ q ∈ rest, q.zoom ≤ M := fun q hq => hl q (by simp [hq])
    have hlk : k.zoom ≤ M := hl k (by simp)
    match acc with
    | [] =>
      rw [absorbFold_nil_cons] at hk'
      exact ih [k] hlr (by simpa using hlk) k' hk'
    | p :: tl =>
      rw [absorbFold_cons_cons] at hk'
      by_cases hc : cond p k
      · rw [if_pos hc] at hk'
        refine ih (mergeKeys p k :: tl) hlr ?_ k' hk'
        intro q hq
        rcases List.mem_cons.mp hq with h | h
        · subst h
          exact max_le (hacc p (by simp)) hlk
        · exact hacc q (by simp [h])
      · rw [if_neg hc] at hk'
        refine ih (k :: p :: tl) hlr ?_ k' hk'
        intro q hq
        rcases List.mem_cons.mp hq with h | h
        · subst h; exact hlk
        · exact hacc q h

/-! ### Structural lemmas about the cut-gating pass -/

theorem sanitizeCuts_map_t (CAM : CamConfig) :
    ∀ l : List CamKey,
      (sanitizeCuts CAM l).map (fun k => k.t) = l.map fun k => k.t
  | [] => by simp [sanitizeCuts]
  | [a] => by simp [sanitizeCuts]
  | a :: b :: rest => by
    have ih := sanitizeCuts_map_t CAM
      ({ b with cut := b.cut && shouldCut CAM a b } :: rest)
    simp only [sanitizeCuts, List.map_cons, ih]
termination_by l => l.length

theorem sanitizeCuts_map_zoom (CAM : CamConfig) :
    ∀ l : List CamKey,
      (sanitizeCuts CAM l).map (fun k => k.zoom) = l.map fun k => k.zoom
  | [] => by simp [sanitizeCuts]
  | [a] => by simp [sanitizeCuts]
  | a :: b :: rest => by
    have ih := sanitizeCuts_map_zoom CAM
      ({ b with cut := b.cut && shouldCut CAM a b } :: rest)
    simp only [sanitizeCuts, List.map_cons, ih]
termination_by l => l.length

theorem sanitizeCuts_cons (CAM : CamConfig) (a : CamKey) (l : List CamKey) :
    ∃ r, sanitizeCuts CAM (a :: l) = a :: r := by
  cases l with
  | nil => exact ⟨[], by simp [sanitizeCuts]⟩
  | cons b rest =>
    exact ⟨sanitizeCuts CAM ({ b with cut := b.cut && shouldCut CAM a b } :: rest),
      by simp [sanitizeCuts]⟩

/-! ### Claim theorems: sampler -/

/-- Claim C1: for every style string, every config and every rational
query time, `sampleCamera` on the empty keyframe array returns exactly the
centered default pose (center 0.5/0.5, zoom 1, no cut). -/
theorem sampleCamera_empty (style : String) (ms : ℚ) (CAM : CamConfig) :
    sampleCamera [] style ms CAM = ⟨0, 1/2, 1/2, 1, false⟩ := rfl

/-- Claim C2: evaluation of the code at the failing input.  With sorted
keyframes `[{t:0,...}, {t:1000, cut:true, zoom:2, ...}]`, aggressive
style and `ms = 1070` (inside the claimed 140ms snap-and-settle window),
the sampler returns the next key's nominal pose with zoom 2: the scan sets
the current shot to the cut key itself once `ms ≥ 1000`, so the zoom
overshoot branch never fires and the claimed overshoot zoom
`2·(1+0.08·(1−ease(0.5))) = 2.08` is not produced. -/
theorem sampleCamera_aggressive_cut_window_eval :
    sampleCamera [⟨0, 1/2, 1/2, 1, false⟩, ⟨1000, 3/10, 3/10, 2, true⟩]
        "aggressive" 1070 (buildCamConfig "aggressive") =
      ⟨1000, 3/10, 3/10, 2, true⟩ ∧
    (2 : ℚ) ≠ 2 * (1 + 8/100 * (1 - easeQ ((1070 - 1000) / 140))) := by
  constructor
  · simp only [sampleCamera, if_pos rfl]
    norm_num [List.takeWhile, List.indexOf_cons_self, List.indexOf_cons_ne,
      CamKey.mk.injEq]
  · norm_num [easeQ]

/-- Claim C3, counterexample: with a single keyframe at `t=500` centered at
`(0.8, 0.3)` and query time `ms = 100 < 500`, the default-style sampler
returns the first key's pose, not the claimed center framing
`{cx:0.5, cy:0.5, zoom:1}`. -/
theorem sampleCamera_before_first_key_counterexample :
    sampleCamera [⟨500, 4/5, 3/10, 2, true⟩] "default" 100
        (buildCamConfig "default") = ⟨500, 4/5, 3/10, 2, false⟩ ∧
    (4/5 : ℚ) ≠ 1/2 := by
  constructor
  · simp only [sampleCamera, if_neg (by decide : ¬ ("default":String) = "aggressive")]
    norm_num [List.find?, List.indexOf_cons_self, camDefault, CamKey.mk.injEq,
      sampleTail, lastLeIdx]
  · norm_num

/-- Claim C3, amended: for a non-empty keyframe array, a non-aggressive
style and a query time strictly before every key's start (hence before the
first key), the sampler returns the FIRST KEY's position and zoom - with
`cut` forced false when `ms` is within `leadMs` of the first key's start,
and the first key's own pose (including its cut flag) otherwise.  Center
framing results only when the first key is itself the centered
placeholder. -/
theorem sampleCamera_before_first_key (kh : CamKey) (kt : List CamKey)
    (style : String) (ms : ℚ) (CAM : CamConfig)
    (hs : style ≠ "aggressive") (hall : ∀ k ∈ kh :: kt, ms < k.t) :
    sampleCamera (kh :: kt) style ms CAM =
      if kh.t - CAM.leadMs ≤ ms then { kh with cut := false } else kh := by
  have hh : ms < kh.t := hall kh (by simp)
  have hf : (kh :: kt).find? (fun k => decide (ms < k.t)) = some kh :=
    List.find?_cons_of_pos _ (by simpa using hh)
  simp only [sampleCamera, if_neg hs, hf, List.indexOf_cons_self]
  by_cases hld : kh.t - CAM.leadMs ≤ ms
  · rw [if_pos ⟨hld, hh⟩, if_pos hld]
    simp [sub_self, zero_mul, add_zero]
  · rw [if_neg (by rintro ⟨h1, _⟩; exact hld h1), if_neg hld]
    simp [sampleTail, lastLeIdx_none ms (kh :: kt) hall]

/-- Claim C3, witness for the amended theorem at a concrete input (single
key at t=500, query at ms=100, inside the lead window). -/
theorem sampleCamera_before_first_key_witness :
    (("default" : String) ≠ "aggressive" ∧
      ∀ k ∈ [(⟨500, 4/5, 3/10, 2, true⟩ : CamKey)], (100:ℚ) < k.t) ∧
    sampleCamera [⟨500, 4/5, 3/10, 2, true⟩] "default" 100
        (buildCamConfig "default") =
      if (500:ℚ) - (buildCamConfig "default").leadMs ≤ 100 then
        ({ (⟨500, 4/5, 3/10, 2, true⟩ : CamKey) with cut := false })
      else ⟨500, 4/5, 3/10, 2, true⟩ := by
  refine ⟨⟨by decide, by norm_num⟩, ?_⟩
  exact sampleCamera_before_first_key _ _ _ _ _ (by decide) (by norm_num)

/-! ### Claim theorems: builder counterexamples -/

/-- Claim C4, counterexample: a single sorted positioned event at
`t=100 > 0` (type `establish`, centered) yields an output whose first key
is NOT exactly the placeholder `{t:0, cx:0.5, cy:0.5, zoom:1}`: the
spatial-dedupe pass merges the establish key into the placeholder, leaving
zoom 1.12. -/
theorem buildCamKeys_first_key_counterexample :
    buildCamKeys [⟨100, "establish", some (1/2), some (1/2), none, none⟩]
        "default" (buildCamConfig "default") =
      [⟨0, 1/2, 1/2, 28/25, false⟩] ∧ (28/25 : ℚ) ≠ 1 := by
  constructor
  · have h1 : stageKeys [⟨100, "establish", some (1/2), some (1/2), none, none⟩]
        "default" (buildCamConfig "default") = [⟨100, 1/2, 1/2, 28/25, false⟩] := by
      simp [stageKeys, filterProgress, keysOf, keyOfEvent, eventZoom, eventCut,
        baseZoom, aggBoost, buildCamConfig]
      norm_num
    have h2 : stageClustered [⟨100, "establish", some (1/2), some (1/2), none, none⟩]
        "default" (buildCamConfig "default") = [⟨100, 1/2, 1/2, 28/25, false⟩] := by
      rw [stageClustered, stageSorted, h1, List.mergeSort_singleton]
      simp [clusterKeys, absorbFold]
    have h4 : stageDeduped [⟨100, "establish", some (1/2), some (1/2), none, none⟩]
        "default" (buildCamConfig "default") = [⟨0, 1/2, 1/2, 28/25, false⟩] := by
      rw [stageDeduped, h2]
      simp [withPlaceholder, absorbFold, dedupeCond, hypotLt, mergeKeys, buildCamConfig]
      norm_num [abs_lt, le_abs]
    rw [buildCamKeys, if_neg (by decide : ¬ ("default" : String) = "aggressive"), h4]
    simp [sanitizeCuts]
  · norm_num

/-- Claim C5, counterexample: an event with `w = 0` carries a bounding box
(both fields present), but the source's truthiness test `if (ev.w && ev.h)`
skips the area scaling for it: the click key keeps zoom 1.7 instead of the
claimed `min(1.7·min(2.8, 1+(0.25−min(0.25,0))·3.8), 3.2) = 3.2`. -/
theorem buildCamKeys_area_zoom_counterexample :
    buildCamKeys [⟨100, "click", some (1/2), some (1/2), some 0, some (1/2)⟩]
        "default" (buildCamConfig "default") =
      [⟨0, 1/2, 1/2, 1, false⟩, ⟨100, 1/2, 1/2, 17/10, true⟩] ∧
    (17/10 : ℚ) ≠
      min ((17/10) * min (28/10) (1 + (1/4 - min (1/4) (0 * (1/2))) * (38/10)))
        ((32:ℚ)/10) := by
  constructor
  · have h1 : stageKeys
        [⟨100, "click", some (1/2), some (1/2), some 0, some (1/2)⟩]
        "default" (buildCamConfig "default") = [⟨100, 1/2, 1/2, 17/10, true⟩] := by
      simp [stageKeys, filterProgress, keysOf, keyOfEvent, eventZoom, eventCut,
        baseZoom, aggBoost, buildCamConfig]
      norm_num [min_def]
    have h2 : stageClustered
        [⟨100, "click", some (1/2), some (1/2), some 0, some (1/2)⟩]
        "default" (buildCamConfig "default") = [⟨100, 1/2, 1/2, 17/10, true⟩] := by
      rw [stageClustered, stageSorted, h1, List.mergeSort_singleton]
      simp [clusterKeys, absorbFold]
    have h4 : stageDeduped
        [⟨100, "click", some (1/2), some (1/2), some 0, some (1/2)⟩]
        "default" (buildCamConfig "default") =
        [⟨0, 1/2, 1/2, 1, false⟩, ⟨100, 1/2, 1/2, 17/10, true⟩] := by
      rw [stageDeduped, h2]
      simp [withPlaceholder, absorbFold, dedupeCond, hypotLt, mergeKeys, buildCamConfig]
      norm_num [abs_lt, le_abs]
    rw [buildCamKeys, if_neg (by decide : ¬ ("default" : String) = "aggressive"), h4]
    simp [sanitizeCuts, shouldCut, hypotLt, buildCamConfig]
    norm_num [le_abs, abs_lt]
  · norm_num

/-- Claim C9, counterexample: for the cinematic style, the odd-indexed
(second) click key has its y center biased by +0.04, not ±0.05: with both
events at `(0.5, 0.5)` the second output key has `cy = 0.54`, which is
neither `0.55` nor `0.45`. -/
theorem buildCamKeys_cinematic_bias_counterexample :
    buildCamKeys [⟨0, "click", some (1/2), some (1/2), none, none⟩,
        ⟨2000, "click", some (1/2), some (1/2), none, none⟩]
      "cinematic" (buildCamConfig "cinematic") =
      [⟨0, 43/100, 9/20, 3/2, true⟩, ⟨2000, 57/100, 27/50, 3/2, true⟩] ∧
    (27/50 : ℚ) ≠ 1/2 + 5/100 ∧ (27/50 : ℚ) ≠ 1/2 - 5/100 := by
  refine ⟨?_, by norm_num, by norm_num⟩
  have h1 : stageKeys [⟨0, "click", some (1/2), some (1/2), none, none⟩,
        ⟨2000, "click", some (1/2), some (1/2), none, none⟩]
      "cinematic" (buildCamConfig "cinematic") =
      [⟨0, 43/100, 9/20, 3/2, true⟩, ⟨2000, 57/100, 27/50, 3/2, true⟩] := by
    simp [stageKeys, filterProgress, keysOf, keyOfEvent, eventZoom, eventCut,
      baseZoom, aggBoost, buildCamConfig]
    norm_num
  have h2 : stageClustered [⟨0, "click", some (1/2), some (1/2), none, none⟩,
        ⟨2000, "click", some (1/2), some (1/2), none, none⟩]
      "cinematic" (buildCamConfig "cinematic") =
      [⟨0, 43/100, 9/20, 3/2, true⟩, ⟨2000, 57/100, 27/50, 3/2, true⟩] := by
    rw [stageClustered, stageSorted, h1,
      List.mergeSort_of_sorted (by norm_num [List.pairwise_cons])]
    simp [clusterKeys, absorbFold, buildCamConfig]
    norm_num
  have h4 : stageDeduped [⟨0, "click", some (1/2), some (1/2), none, none⟩,
        ⟨2000, "click", some (1/2), some (1/2), none, none⟩]
      "cinematic" (buildCamConfig "cinematic") =
      [⟨0, 43/100, 9/20, 3/2, true⟩, ⟨2000, 57/100, 27/50, 3/2, true⟩] := by
    rw [stageDeduped, h2]
    simp [withPlaceholder, absorbFold, dedupeCond, hypotLt, mergeKeys, buildCamConfig]
    norm_num
  rw [buildCamKeys, if_neg (by decide : ¬ ("cinematic" : String) = "aggressive"), h4]
  simp [sanitizeCuts, shouldCut, hypotLt, buildCamConfig]
  norm_num [le_abs, abs_lt]

/-! ### Per-event key facts -/

theorem keyOfEvent_zoom (style : String) (CAM : CamConfig) (i : ℕ)
    (lc : Option ℚ) (ev : TimelineEvent) (x y : ℚ) :
    (keyOfEvent style CAM i lc ev x y).zoom = eventZoom style CAM ev := by
  simp only [keyOfEvent]
  split <;> rfl

theorem keyOfEvent_t (style : String) (CAM : CamConfig) (i : ℕ)
    (lc : Option ℚ) (ev : TimelineEvent) (x y : ℚ) :
    (keyOfEvent style CAM i lc ev x y).t = ev.t := by
  simp only [keyOfEvent]
  split <;> rfl

theorem eventZoom_le (style : String) (CAM : CamConfig) (ev : TimelineEvent) :
    eventZoom style CAM ev ≤ CAM.maxZoom := by
  simp only [eventZoom]
  exact min_le_right _ _

theorem keysOf_zoom_le (style : String) (CAM : CamConfig) :
    ∀ (l : List TimelineEvent) (i : ℕ) (lc : Option ℚ),
      ∀ k ∈ keysOf style CAM i lc l, k.zoom ≤ CAM.maxZoom := by
  intro l
  induction l with
  | nil => intro i lc k hk; simp [keysOf] at hk
  | cons ev rest ih =>
    intro i lc k hk
    rcases hex : ev.x with _ | x
    · rw [keysOf, hex] at hk
      exact ih i lc k hk
    · rcases hey : ev.y with _ | y
      · rw [keysOf, hex, hey] at hk
        exact ih i lc k hk
      · rw [keysOf, hex, hey] at hk
        rcases List.mem_cons.mp hk with h | h
        · subst h
          rw [keyOfEvent_zoom]
          exact eventZoom_le style CAM ev
        · exact ih _ _ k h

theorem withPlaceholder_mem (l : List CamKey) (k : CamKey)
    (hk : k ∈ withPlaceholder l) :
    k = ⟨0, 1/2, 1/2, 1, false⟩ ∨ k ∈ l := by
  cases l with
  | nil => simp [withPlaceholder] at hk
  | cons c rest =>
    rw [withPlaceholder] at hk
    by_cases hc : 0 < c.t
    · rw [if_pos hc] at hk
      rcases List.mem_cons.mp hk with h | h
      · exact Or.inl h
      · exact Or.inr h
    · rw [if_neg hc] at hk
      exact Or.inr hk

theorem sanitizeCuts_zoom_mem (CAM : CamConfig) (l : List CamKey) (k : CamKey)
    (hk : k ∈ sanitizeCuts CAM l) : ∃ k' ∈ l, k'.zoom = k.zoom := by
  have h1 : k.zoom ∈ (sanitizeCuts CAM l).map (fun k => k.zoom) :=
    List.mem_map_of_mem _ hk
  rw [sanitizeCuts_map_zoom] at h1
  obtain ⟨k', hk', he⟩ := List.mem_map.mp h1
  exact ⟨k', hk', he⟩

/-! ### Claim theorems: builder -/

/-- Claim C6: merging semantics of the temporal-clustering pass: a key
starting less than `c` after the previously accepted key merges into it,
the merged key taking the midpoint position, the max of the zooms and the
OR of the cut flags; concretely, two identical click events 12ms apart
(well under the default 600ms window) produce exactly one event-derived
key (preceded only by the implicit t=0 placeholder). -/
theorem clusterKeys_merge_pair (c : ℚ) (k1 k2 : CamKey)
    (hlt : k2.t - k1.t < c) :
    clusterKeys c [k1, k2] =
      [⟨k1.t, (k1.cx + k2.cx) / 2, (k1.cy + k2.cy) / 2, max k1.zoom k2.zoom,
        k1.cut || k2.cut⟩] ∧
    buildCamKeys [⟨1000, "click", some (3/10), some (7/10), none, none⟩,
        ⟨1012, "click", some (3/10), some (7/10), none, none⟩]
      "default" (buildCamConfig "default") =
      [⟨0, 1/2, 1/2, 1, false⟩, ⟨1000, 3/10, 7/10, 17/10, true⟩] := by
  constructor
  · rw [clusterKeys, absorbFold_nil_cons, absorbFold_cons_cons,
      if_pos (by simpa using hlt), absorbFold_nil]
    simp [mergeKeys]
  · have h1 : stageKeys [⟨1000, "click", some (3/10), some (7/10), none, none⟩,
          ⟨1012, "click", some (3/10), some (7/10), none, none⟩]
        "default" (buildCamConfig "default") =
        [⟨1000, 3/10, 7/10, 17/10, true⟩, ⟨1012, 3/10, 7/10, 17/10, true⟩] := by
      simp [stageKeys, filterProgress, keysOf, keyOfEvent, eventZoom, eventCut,
        baseZoom, aggBoost, buildCamConfig]
      norm_num [min_def]
    have h2 : stageClustered [⟨1000, "click", some (3/10), some (7/10), none, none⟩,
          ⟨1012, "click", some (3/10), some (7/10), none, none⟩]
        "default" (buildCamConfig "default") = [⟨1000, 3/10, 7/10, 17/10, true⟩] := by
      rw [stageClustered, stageSorted, h1,
        List.mergeSort_of_sorted (by norm_num [List.pairwise_cons])]
      rw [camDefault, clusterKeys, absorbFold_nil_cons, absorbFold_cons_cons,
        if_pos (by norm_num), absorbFold_nil]
      simp [mergeKeys]
    have h4 : stageDeduped [⟨1000, "click", some (3/10), some (7/10), none, none⟩,
          ⟨1012, "click", some (3/10), some (7/10), none, none⟩]
        "default" (buildCamConfig "default") =
        [⟨0, 1/2, 1/2, 1, false⟩, ⟨1000, 3/10, 7/10, 17/10, true⟩] := by
      rw [stageDeduped, h2]
      simp [withPlaceholder, absorbFold, dedupeCond, hypotLt, mergeKeys, camDefault]
      norm_num
    rw [buildCamKeys, if_neg (by decide : ¬ ("default" : String) = "aggressive"), h4]
    simp [sanitizeCuts, shouldCut, hypotLt, camDefault]
    norm_num

/-- Claim C6, witness: the merge-step equation applied at the concrete
pair of keys 12ms apart under the default 600ms clustering window. -/
theorem clusterKeys_merge_pair_witness :
    ((1012 : ℚ) - 1000 < 600) ∧
    (clusterKeys 600 [⟨1000, 3/10, 7/10, 17/10, true⟩,
        ⟨1012, 3/10, 7/10, 17/10, true⟩] =
      [⟨1000, (3/10 + 3/10) / 2, (7/10 + 7/10) / 2, max (17/10) (17/10),
        true || true⟩] ∧
    buildCamKeys [⟨1000, "click", some (3/10), some (7/10), none, none⟩,
        ⟨1012, "click", some (3/10), some (7/10), none, none⟩]
      "default" (buildCamConfig "default") =
      [⟨0, 1/2, 1/2, 1, false⟩, ⟨1000, 3/10, 7/10, 17/10, true⟩]) :=
  ⟨by norm_num, clusterKeys_merge_pair 600 _ _ (by norm_num)⟩

/-- Claim C9, amended: for the cinematic style, a positioned event's key
applies the alternating rule-of-thirds bias unless the event is an
`establish`: x is biased by -0.07 on even shot indices and +0.07 on odd
ones, and y is biased by -0.05 when the index is divisible by 3 and +0.04
otherwise (not ±0.05), both clamped to [0.15, 0.85]; establish events get
the raw center. -/
theorem keysOf_cinematic_bias (CAM : CamConfig) (i : ℕ) (lc : Option ℚ)
    (ev : TimelineEvent) (rest : List TimelineEvent) (x y : ℚ)
    (hx : ev.x = some x) (hy : ev.y = some y) :
    ((keysOf "cinematic" CAM i lc (ev :: rest)).head? =
      some (keyOfEvent "cinematic" CAM i lc ev x y)) ∧
    (ev.type ≠ "establish" →
      (keyOfEvent "cinematic" CAM i lc ev x y).cx =
        min (85/100) (max (15/100) (x + if i % 2 = 0 then -(7/100) else 7/100)) ∧
      (keyOfEvent "cinematic" CAM i lc ev x y).cy =
        min (85/100) (max (15/100) (y + if i % 3 = 0 then -(5/100) else 4/100))) ∧
    (ev.type = "establish" →
      (keyOfEvent "cinematic" CAM i lc ev x y).cx = x ∧
      (keyOfEvent "cinematic" CAM i lc ev x y).cy = y) := by
  refine ⟨?_, ?_, ?_⟩
  · rw [keysOf, hx, hy]
    rfl
  · intro hne
    rw [keyOfEvent, if_pos ⟨rfl, hne⟩]
    exact ⟨rfl, rfl⟩
  · intro hest
    rw [keyOfEvent, if_neg (by simp [hest])]
    exact ⟨rfl, rfl⟩

/-- Claim C9, witness: the bias equations applied to the odd-indexed
(shot 1) centered click of the counterexample input: x biased +0.07,
y biased +0.04. -/
theorem keysOf_cinematic_bias_witness :
    ((⟨2000, "click", some (1/2), some (1/2), none, none⟩ : TimelineEvent).x =
      some (1/2) ∧
     (⟨2000, "click", some (1/2), some (1/2), none, none⟩ : TimelineEvent).y =
      some (1/2)) ∧
    (((keysOf "cinematic" (buildCamConfig "cinematic") 1 (some 0)
        ([⟨2000, "click", some (1/2), some (1/2), none, none⟩])).head? =
      some (keyOfEvent "cinematic" (buildCamConfig "cinematic") 1 (some 0)
        ⟨2000, "click", some (1/2), some (1/2), none, none⟩ (1/2) (1/2))) ∧
    ((⟨2000, "click", some (1/2), some (1/2), none, none⟩ : TimelineEvent).type ≠
        "establish" →
      (keyOfEvent "cinematic" (buildCamConfig "cinematic") 1 (some 0)
        ⟨2000, "click", some (1/2), some (1/2), none, none⟩ (1/2) (1/2)).cx =
        min (85/100) (max (15/100) ((1:ℚ)/2 + if 1 % 2 = 0 then -(7/100) else 7/100)) ∧
      (keyOfEvent "cinematic" (buildCamConfig "cinematic") 1 (some 0)
        ⟨2000, "click", some (1/2), some (1/2), none, none⟩ (1/2) (1/2)).cy =
        min (85/100) (max (15/100) ((1:ℚ)/2 + if 1 % 3 = 0 then -(5/100) else 4/100))) ∧
    ((⟨2000, "click", some (1/2), some (1/2), none, none⟩ : TimelineEvent).type =
        "establish" →
      (keyOfEvent "cinematic" (buildCamConfig "cinematic") 1 (some 0)
        ⟨2000, "click", some (1/2), some (1/2), none, none⟩ (1/2) (1/2)).cx = 1/2 ∧
      (keyOfEvent "cinematic" (buildCamConfig "cinematic") 1 (some 0)
        ⟨2000, "click", some (1/2), some (1/2), none, none⟩ (1/2) (1/2)).cy = 1/2)) :=
  ⟨⟨rfl, rfl⟩, keysOf_cinematic_bias _ 1 _ _ _ _ _ rfl rfl⟩

/-- Claim C5, amended: the area scaling applies when the event's `w` and
`h` are present AND nonzero (the source tests JS truthiness, so a zero
dimension skips the scaling): the event zoom then equals the base zoom
(with the aggressive boost) times `min(2.8, 1+(0.25-min(0.25,w*h))*3.8)`,
clamped to `maxZoom`; and for any config with `maxZoom ≥ 1` (as every
style config has) every output key's zoom is at most `maxZoom`. -/
theorem buildCamKeys_zoom_clamp (style : String) (CAM : CamConfig)
    (ev : TimelineEvent) (w h : ℚ) (timeline : List TimelineEvent)
    (hw : ev.w = some w) (hh : ev.h = some h) (hw0 : w ≠ 0) (hh0 : h ≠ 0)
    (hM : 1 ≤ CAM.maxZoom) :
    eventZoom style CAM ev =
      min ((if style = "aggressive" then baseZoom style ev.type + aggBoost ev.type
            else baseZoom style ev.type) *
          min (28/10) (1 + (1/4 - min (1/4) (w * h)) * (38/10)))
        CAM.maxZoom ∧
    (∀ k ∈ buildCamKeys timeline style CAM, k.zoom ≤ CAM.maxZoom) ∧
    (∀ s : String, 1 ≤ (buildCamConfig s).maxZoom) := by
  refine ⟨?_, ?_, ?_⟩
  · rw [eventZoom, hw, hh]
    simp only [if_pos (And.intro hw0 hh0)]
  · intro k hk
    have hkeys : ∀ q ∈ stageKeys timeline style CAM, q.zoom ≤ CAM.maxZoom :=
      fun q hq => keysOf_zoom_le style CAM _ 0 none q hq
    have hsorted : ∀ q ∈ stageSorted timeline style CAM, q.zoom ≤ CAM.maxZoom :=
      fun q hq => hkeys q (List.mem_mergeSort.mp hq)
    have hclustered : ∀ q ∈ stageClustered timeline style CAM,
        q.zoom ≤ CAM.maxZoom :=
      absorbFold_zoom_le _ CAM.maxZoom _ [] hsorted (by simp)
    have hph : ∀ q ∈ withPlaceholder (stageClustered timeline style CAM),
        q.zoom ≤ CAM.maxZoom := by
      intro q hq
      rcases withPlaceholder_mem _ q hq with hq' | hq'
      · rw [hq']; exact hM
      · exact hclustered q hq'
    have hded : ∀ q ∈ stageDeduped timeline style CAM, q.zoom ≤ CAM.maxZoom :=
      absorbFold_zoom_le _ CAM.maxZoom _ [] hph (by simp)
    rw [buildCamKeys] at hk
    by_cases hs : style = "aggressive"
    · rw [if_pos hs] at hk
      exact hded k hk
    · rw [if_neg hs] at hk
      obtain ⟨k', hk', he⟩ := sanitizeCuts_zoom_mem CAM _ k hk
      rw [← he]
      exact hded k' hk'
  · intro s
    rw [buildCamConfig]
    split_ifs <;> norm_num

/-- Claim C5, witness: the amended zoom formula and clamp at a concrete
input: default-style click with box 0.1x0.1 (area 0.01), base zoom 1.7,
scaling factor min(2.8, 1.912) - all output zooms bounded by 3.2. -/
theorem buildCamKeys_zoom_clamp_witness :
    ((⟨1000, "click", some (1/2), some (1/2), some (1/10), some (1/10)⟩ :
        TimelineEvent).w = some (1/10) ∧
     (⟨1000, "click", some (1/2), some (1/2), some (1/10), some (1/10)⟩ :
        TimelineEvent).h = some (1/10) ∧
     ((1:ℚ)/10 ≠ 0) ∧ (1 : ℚ) ≤ (buildCamConfig "default").maxZoom) ∧
    (eventZoom "default" (buildCamConfig "default")
        ⟨1000, "click", some (1/2), some (1/2), some (1/10), some (1/10)⟩ =
      min ((if ("default" : String) = "aggressive" then
              baseZoom "default" "click" + aggBoost "click"
            else baseZoom "default" "click") *
          min (28/10) (1 + (1/4 - min (1/4) ((1:ℚ)/10 * (1/10))) * (38/10)))
        (buildCamConfig "default").maxZoom ∧
    (∀ k ∈ buildCamKeys
        [⟨1000, "click", some (1/2), some (1/2), some (1/10), some (1/10)⟩]
        "default" (buildCamConfig "default"),
      k.zoom ≤ (buildCamConfig "default").maxZoom) ∧
    (∀ s : String, 1 ≤ (buildCamConfig s).maxZoom)) :=
  ⟨⟨rfl, rfl, by norm_num, by rw [camDefault]; norm_num⟩,
    buildCamKeys_zoom_clamp "default" _ _ _ _ _ rfl rfl (by norm_num)
      (by norm_num) (by rw [camDefault]; norm_num)⟩

/-- The non-aggressive branch of the sampler, written out as an equation
on a non-empty key list. -/
theorem sampleCamera_nonagg (k0 : CamKey) (rest : List CamKey) (style : String)
    (ms : ℚ) (CAM : CamConfig) (hs : style ≠ "aggressive") :
    sampleCamera (k0 :: rest) style ms CAM =
      (match (k0 :: rest).find? (fun k => decide (ms < k.t)) with
      | some next =>
        let pi := (k0 :: rest).indexOf next
        let prev := if 1 ≤ pi then (k0 :: rest).getD (pi - 1) k0 else k0
        if next.t - CAM.leadMs ≤ ms ∧ ms < next.t then
          { t := prev.t,
            cx := prev.cx + (next.cx - prev.cx) *
              easeQ (1 - (next.t - ms) / CAM.leadMs),
            cy := prev.cy + (next.cy - prev.cy) *
              easeQ (1 - (next.t - ms) / CAM.leadMs),
            zoom := prev.zoom + (next.zoom - prev.zoom) *
              easeQ (1 - (next.t - ms) / CAM.leadMs) * (85/100),
            cut := false }
        else sampleTail (k0 :: rest) k0 ms
      | none => sampleTail (k0 :: rest) k0 ms) := by
  simp only [sampleCamera, if_neg hs]

/-- Claim C7: for non-aggressive styles, when `ms` lies inside the
`leadMs` window before the first key strictly after `ms`, the sampler
eases position from the preceding key toward it by the symmetric cubic
ease of `k = 1 - (next.t - ms)/leadMs`, with zoom interpolated at 0.85
times the position ease, and no cut. -/
theorem sampleCamera_lead_window (pre : List CamKey) (next : CamKey)
    (post : List CamKey) (style : String) (ms : ℚ) (CAM : CamConfig)
    (hs : style ≠ "aggressive")
    (hpre : ∀ k ∈ pre, k.t ≤ ms)
    (hnext : ms < next.t)
    (hlead : next.t - CAM.leadMs ≤ ms) :
    sampleCamera (pre ++ next :: post) style ms CAM =
      { t := (pre.getLast?.getD next).t,
        cx := (pre.getLast?.getD next).cx +
          (next.cx - (pre.getLast?.getD next).cx) *
            easeQ (1 - (next.t - ms) / CAM.leadMs),
        cy := (pre.getLast?.getD next).cy +
          (next.cy - (pre.getLast?.getD next).cy) *
            easeQ (1 - (next.t - ms) / CAM.leadMs),
        zoom := (pre.getLast?.getD next).zoom +
          (next.zoom - (pre.getLast?.getD next).zoom) *
            easeQ (1 - (next.t - ms) / CAM.leadMs) * (85/100),
        cut := false } := by
  have hfind : (pre ++ next :: post).find? (fun k => decide (ms < k.t)) =
      some next :=
    find?_prefix_false _ pre next post
      (fun k hk => by simpa using not_lt.mpr (hpre k hk)) (by simpa using hnext)
  have hmem : next ∉ pre := fun hm => absurd (hpre next hm) (not_le.mpr hnext)
  have hidx : (pre ++ next :: post).indexOf next = pre.length :=
    indexOf_append_not_mem pre next post hmem
  cases pre with
  | nil =>
    rw [List.nil_append] at hfind hidx ⊢
    rw [sampleCamera_nonagg next post style ms CAM hs, hfind]
    dsimp only
    rw [hidx, if_pos ⟨hlead, hnext⟩]
    simp
  | cons p pre' =>
    rw [List.cons_append] at hfind hidx ⊢
    rw [sampleCamera_nonagg p (pre' ++ next :: post) style ms CAM hs, hfind]
    dsimp only
    rw [hidx, if_pos ⟨hlead, hnext⟩]
    have hlen : 1 ≤ (p :: pre').length := by simp
    have hif : (if 1 ≤ (p :: pre').length then
          (p :: (pre' ++ next :: post)).getD ((p :: pre').length - 1) p
        else p) = (p :: pre').getLast?.getD next := by
      rw [if_pos hlen, ← List.cons_append,
        List.getD_append _ _ _ _ (by simp [Nat.lt_succ_iff]),
        getD_last_eq]
      cases hgl : (p :: pre').getLast? with
      | none => simp at hgl
      | some g => rfl
    rw [hif]

/-- Claim C7, witness: the lead-window formula at the spec's concrete
input (prev at t=0, next at t=1000, ms=950, default 900ms lead window),
with the eased fraction 1457/1458 at least 94% of the way. -/
theorem sampleCamera_lead_window_witness :
    (("default" : String) ≠ "aggressive" ∧
     (∀ k ∈ [(⟨0, 1/5, 1/5, 1, false⟩ : CamKey)], k.t ≤ (950:ℚ)) ∧
     (950:ℚ) < 1000 ∧
     (1000:ℚ) - (buildCamConfig "default").leadMs ≤ 950) ∧
    sampleCamera [⟨0, 1/5, 1/5, 1, false⟩, ⟨1000, 4/5, 4/5, 2, false⟩]
        "default" 950 (buildCamConfig "default") =
      ⟨0, 1943/2430, 1943/2430, 53929/29160, false⟩ ∧
    (94:ℚ)/100 ≤ easeQ (1 - ((1000:ℚ) - 950) / (buildCamConfig "default").leadMs) := by
  refine ⟨⟨by decide, by norm_num, by norm_num, by rw [camDefault]; norm_num⟩, ?_, ?_⟩
  · have h := sampleCamera_lead_window [⟨0, 1/5, 1/5, 1, false⟩]
      ⟨1000, 4/5, 4/5, 2, false⟩ [] "default" 950 (buildCamConfig "default")
      (by decide) (by norm_num) (by norm_num) (by rw [camDefault]; norm_num)
    rw [List.singleton_append] at h
    rw [h]
    norm_num [camDefault, easeQ, CamKey.mk.injEq]
  · rw [camDefault]
    norm_num [easeQ]

/-- Claim C8: for non-aggressive styles, outside the lead window the
sampler eases over the full inter-key span from the latest key `a` at or
before `ms` toward the following key `b`, and reports `cut` true exactly
when `b`'s cut flag is set AND the ease fraction `min 1 ((ms-a.t)/span)`
exceeds 0.9. -/
theorem sampleCamera_full_span_cut (pre : List CamKey) (a b : CamKey)
    (post : List CamKey) (style : String) (ms : ℚ) (CAM : CamConfig)
    (hs : style ≠ "aggressive")
    (hpre : ∀ k ∈ pre, k.t ≤ ms)
    (ha : a.t ≤ ms)
    (hb : ms < b.t)
    (hpost : ∀ k ∈ post, ms < k.t)
    (hnl : ms < b.t - CAM.leadMs) :
    (sampleCamera (pre ++ a :: b :: post) style ms CAM).cut =
      (b.cut && decide ((9:ℚ)/10 < min 1 ((ms - a.t) / (b.t - a.t)))) ∧
    ((sampleCamera (pre ++ a :: b :: post) style ms CAM).cut = true ↔
      b.cut = true ∧ (9:ℚ)/10 < min 1 ((ms - a.t) / (b.t - a.t))) := by
  have hfind : (pre ++ a :: b :: post).find? (fun k => decide (ms < k.t)) =
      some b := by
    have := find?_prefix_false (fun k => decide (ms < k.t)) (pre ++ [a]) b post
      (fun k hk => by
        rcases List.mem_append.mp hk with h | h
        · simpa using not_lt.mpr (hpre k h)
        · simp only [List.mem_singleton] at h
          subst h
          simpa using not_lt.mpr ha)
      (by simpa using hb)
    simpa using this
  have htail : lastLeIdx ms (pre ++ a :: b :: post) = some pre.length :=
    lastLeIdx_append ms pre a (b :: post) ha
      (fun k hk => by
        rcases List.mem_cons.mp hk with h | h
        · subst h; exact hb
        · exact hpost k h)
  have hspan : 0 < b.t - a.t := by linarith
  have heq : ∀ k0 : CamKey,
      sampleTail (pre ++ a :: b :: post) k0 ms =
        { t := a.t,
          cx := a.cx + (b.cx - a.cx) * easeQ (min 1 ((ms - a.t) / (b.t - a.t))),
          cy := a.cy + (b.cy - a.cy) * easeQ (min 1 ((ms - a.t) / (b.t - a.t))),
          zoom := a.zoom + (b.zoom - a.zoom) *
            easeQ (min 1 ((ms - a.t) / (b.t - a.t))),
          cut := b.cut && decide ((9:ℚ)/10 < min 1 ((ms - a.t) / (b.t - a.t))) } := by
    intro k0
    have hgd : (pre ++ a :: b :: post).getD pre.length k0 = a := by
      rw [List.getD_append_right _ _ _ _ le_rfl]
      simp
    have hget : (pre ++ a :: b :: post).get? (pre.length + 1) = some b := by
      rw [List.get?_eq_getElem?, List.getElem?_append_right (by omega)]
      simp
    rw [sampleTail, htail]
    dsimp only
    rw [hgd, hget]
    dsimp only
    rw [if_pos hspan]
  have hcut : (sampleCamera (pre ++ a :: b :: post) style ms CAM).cut =
      (b.cut && decide ((9:ℚ)/10 < min 1 ((ms - a.t) / (b.t - a.t)))) := by
    cases pre with
    | nil =>
      rw [List.nil_append] at hfind heq ⊢
      rw [sampleCamera_nonagg a (b :: post) style ms CAM hs, hfind]
      dsimp only
      rw [if_neg (by rintro ⟨h1, _⟩; linarith), heq a]
    | cons p pre' =>
      rw [List.cons_append] at hfind heq ⊢
      rw [sampleCamera_nonagg p (pre' ++ a :: b :: post) style ms CAM hs, hfind]
      dsimp only
      rw [if_neg (by rintro ⟨h1, _⟩; linarith), heq p]
  refine ⟨hcut, ?_⟩
  rw [hcut]
  simp [Bool.and_eq_true]

/-- Claim C8, witness: a 10000ms span with default 900ms lead, queried at
ms=9050 (fraction 0.905, outside the lead window), target key flagged cut:
the sampler reports cut=true. -/
theorem sampleCamera_full_span_cut_witness :
    (("default" : String) ≠ "aggressive" ∧
     (⟨0, 1/5, 1/5, 1, false⟩ : CamKey).t ≤ (9050:ℚ) ∧
     (9050:ℚ) < 10000 ∧
     (9050:ℚ) < 10000 - (buildCamConfig "default").leadMs) ∧
    ((sampleCamera [⟨0, 1/5, 1/5, 1, false⟩, ⟨10000, 4/5, 4/5, 2, true⟩]
        "default" 9050 (buildCamConfig "default")).cut = true ∧
     (9:ℚ)/10 < min 1 (((9050:ℚ) - 0) / (10000 - 0))) := by
  refine ⟨⟨by decide, by norm_num, by norm_num, by rw [camDefault]; norm_num⟩, ?_⟩
  have h := sampleCamera_full_span_cut [] ⟨0, 1/5, 1/5, 1, false⟩
    ⟨10000, 4/5, 4/5, 2, true⟩ [] "default" 9050 (buildCamConfig "default")
    (by decide) (by simp) (by norm_num) (by norm_num) (by simp)
    (by rw [camDefault]; norm_num)
  have hfrac : (9:ℚ)/10 < min 1 (((9050:ℚ) - 0) / (10000 - 0)) := by norm_num
  rw [List.nil_append] at h
  exact ⟨h.2.mpr ⟨rfl, hfrac⟩, hfrac⟩

/-! ### Stage-level facts feeding the ordering claims -/

theorem filterProgress_sublist : ∀ (lt : Option ℚ) (l : List TimelineEvent),
    (filterProgress lt l).Sublist l := by
  intro lt l
  induction l generalizing lt with
  | nil => simp [filterProgress]
  | cons ev rest ih =>
    by_cases hp : ev.type = "load-progress"
    · cases lt with
      | none =>
        simp only [filterProgress, if_pos hp]
        exact (ih _).cons₂ _
      | some p =>
        by_cases h2 : ev.t - p < 450
        · simp only [filterProgress, if_pos hp, if_pos h2]
          exact (ih _).cons _
        · simp only [filterProgress, if_pos hp, if_neg h2]
          exact (ih _).cons₂ _
    · simp only [filterProgress, if_neg hp]
      exact (ih _).cons₂ _

theorem filterProgress_cons_none (ev : TimelineEvent)
    (rest : List TimelineEvent) :
    filterProgress none (ev :: rest) =
      ev :: filterProgress
        (if ev.type = "load-progress" then some ev.t else none) rest := by
  by_cases hp : ev.type = "load-progress" <;> simp [filterProgress, hp]

theorem keysOf_cons_positioned (style : String) (CAM : CamConfig) (i : ℕ)
    (lc : Option ℚ) (ev : TimelineEvent) (rest : List TimelineEvent) (x y : ℚ)
    (hx : ev.x = some x) (hy : ev.y = some y) :
    keysOf style CAM i lc (ev :: rest) =
      keyOfEvent style CAM i lc ev x y ::
        keysOf style CAM (i + 1)
          (if style = "cinematic" ∧ eventCut style CAM lc ev then some ev.t
           else lc) rest := by
  simp only [keysOf, hx, hy]

theorem keysOf_t_ge (style : String) (CAM : CamConfig) (m : ℚ) :
    ∀ (l : List TimelineEvent) (i : ℕ) (lc : Option ℚ),
      (∀ e ∈ l, m ≤ e.t) → ∀ k ∈ keysOf style CAM i lc l, m ≤ k.t := by
  intro l
  induction l with
  | nil => intro i lc _ k hk; simp [keysOf] at hk
  | cons ev rest ih =>
    intro i lc hl k hk
    rcases hex : ev.x with _ | x
    · simp only [keysOf, hex] at hk
      exact ih i lc (fun e he => hl e (by simp [he])) k hk
    · rcases hey : ev.y with _ | y
      · simp only [keysOf, hex, hey] at hk
        exact ih i lc (fun e he => hl e (by simp [he])) k hk
      · simp only [keysOf, hex, hey] at hk
        rcases List.mem_cons.mp hk with h | h
        · subst h
          rw [keyOfEvent_t]
          exact hl ev (by simp)
        · exact ih _ _ (fun e he => hl e (by simp [he])) k h

theorem stageSorted_pairwise (timeline : List TimelineEvent) (style : String)
    (CAM : CamConfig) :
    ((stageSorted timeline style CAM).map fun k => k.t).Pairwise (· ≤ ·) := by
  rw [List.pairwise_map]
  have h := @List.sorted_mergeSort CamKey (fun a b : CamKey => decide (a.t ≤ b.t))
    (fun a b c hab hbc => by
      simp only [decide_eq_true_eq] at *
      exact le_trans hab hbc)
    (fun a b => by
      simp only [Bool.or_eq_true, decide_eq_true_eq]
      exact le_total a.t b.t)
    (stageKeys timeline style CAM)
  rw [stageSorted]
  exact h.imp (fun hab => by simpa using hab)

theorem stageClustered_map_t_sublist (timeline : List TimelineEvent)
    (style : String) (CAM : CamConfig) :
    ((stageClustered timeline style CAM).map fun k => k.t).Sublist
      ((stageSorted timeline style CAM).map fun k => k.t) := by
  obtain ⟨s, hs, he⟩ := absorbFold_map_t
    (fun p k => decide (k.t - p.t < CAM.clusterMs))
    (stageSorted timeline style CAM) []
  rw [stageClustered, clusterKeys, he]
  simpa using hs

theorem stageDeduped_map_t_sublist (timeline : List TimelineEvent)
    (style : String) (CAM : CamConfig) :
    ((stageDeduped timeline style CAM).map fun k => k.t).Sublist
      ((withPlaceholder (stageClustered timeline style CAM)).map fun k => k.t) := by
  obtain ⟨s, hs, he⟩ := absorbFold_map_t (dedupeCond style CAM)
    (withPlaceholder (stageClustered timeline style CAM)) []
  rw [stageDeduped, he]
  simpa using hs

theorem withPlaceholder_pairwise (l : List CamKey)
    (h : (l.map fun k => k.t).Pairwise (· ≤ ·)) :
    ((withPlaceholder l).map fun k => k.t).Pairwise (· ≤ ·) := by
  cases l with
  | nil => simp only [withPlaceholder]; exact h
  | cons c rest =>
    rw [withPlaceholder]
    by_cases hc : 0 < c.t
    · rw [if_pos hc, List.map_cons, List.pairwise_cons]
      refine ⟨?_, h⟩
      intro q hq
      show (0:ℚ) ≤ q
      obtain ⟨k, hk, hkq⟩ := List.mem_map.mp hq
      have hck : c.t ≤ k.t := by
        rcases List.mem_cons.mp hk with h1 | h1
        · subst h1; exact le_rfl
        · rw [List.map_cons] at h
          exact (List.pairwise_cons.mp h).1 k.t (List.mem_map_of_mem _ h1)
      rw [← hkq]
      linarith
    · rw [if_neg hc]; exact h

theorem buildCamKeys_map_t (timeline : List TimelineEvent) (style : String)
    (CAM : CamConfig) :
    ((buildCamKeys timeline style CAM).map fun k => k.t) =
      (stageDeduped timeline style CAM).map fun k => k.t := by
  rw [buildCamKeys]
  by_cases hst : style = "aggressive"
  · rw [if_pos hst]
  · rw [if_neg hst, sanitizeCuts_map_t]

/-- Claim C4, amended: for every event array, style and config, the
builder's output is sorted non-decreasing by `t`; and when the events are
sorted by `t` with a positioned first event at `t > 0`, the first output
key sits at `t = 0` - for the aggressive style it is exactly the
placeholder `{t:0, cx:0.5, cy:0.5, zoom:1, cut:false}` (for other styles
the dedupe pass may fold nearby keys into it, as the counterexample
shows). -/
theorem buildCamKeys_sorted_first (timeline : List TimelineEvent)
    (style : String) (CAM : CamConfig) (ev : TimelineEvent)
    (rest : List TimelineEvent) (x y : ℚ)
    (ht : timeline = ev :: rest)
    (hsort : ∀ e ∈ rest, ev.t ≤ e.t)
    (hx : ev.x = some x) (hy : ev.y = some y)
    (hpos : 0 < ev.t) :
    (∀ (tl : List TimelineEvent) (st : String) (C : CamConfig),
      ((buildCamKeys tl st C).map fun k => k.t).Pairwise (· ≤ ·)) ∧
    ((buildCamKeys timeline style CAM).head?.map fun k => k.t) = some 0 ∧
    (style = "aggressive" →
      (buildCamKeys timeline style CAM).head? = some ⟨0, 1/2, 1/2, 1, false⟩) := by
  subst ht
  -- (a) sortedness, for every input
  have hsorted : ∀ (tl : List TimelineEvent) (st : String) (C : CamConfig),
      ((buildCamKeys tl st C).map fun k => k.t).Pairwise (· ≤ ·) := by
    intro tl st C
    have h2 : ((stageClustered tl st C).map fun k => k.t).Pairwise (· ≤ ·) :=
      List.Pairwise.sublist (stageClustered_map_t_sublist tl st C)
        (stageSorted_pairwise tl st C)
    have h4 : ((stageDeduped tl st C).map fun k => k.t).Pairwise (· ≤ ·) :=
      List.Pairwise.sublist (stageDeduped_map_t_sublist tl st C)
        (withPlaceholder_pairwise _ h2)
    rw [buildCamKeys]
    by_cases hst : st = "aggressive"
    · rw [if_pos hst]; exact h4
    · rw [if_neg hst, sanitizeCuts_map_t]; exact h4
  -- every emitted key starts at or after the first event
  have hkeys_ge : ∀ k ∈ stageKeys (ev :: rest) style CAM, ev.t ≤ k.t := by
    intro k hk
    rw [stageKeys] at hk
    refine keysOf_t_ge style CAM ev.t _ 0 none ?_ k hk
    intro e he
    have hmem : e ∈ ev :: rest :=
      (filterProgress_sublist none (ev :: rest)).subset he
    rcases List.mem_cons.mp hmem with h1 | h1
    · subst h1; exact le_rfl
    · exact hsort e h1
  -- the builder emits at least one key (the first event is positioned)
  have hne : stageKeys (ev :: rest) style CAM ≠ [] := by
    rw [stageKeys, filterProgress_cons_none,
      keysOf_cons_positioned style CAM 0 none ev _ x y hx hy]
    simp
  have hsne : stageSorted (ev :: rest) style CAM ≠ [] := by
    rw [stageSorted]
    intro h
    apply hne
    have := @List.length_mergeSort CamKey (fun a b : CamKey => decide (a.t ≤ b.t))
      (stageKeys (ev :: rest) style CAM)
    rw [h] at this
    exact List.length_eq_zero.mp this.symm
  obtain ⟨s0, s', hss⟩ := List.exists_cons_of_ne_nil hsne
  have hs0pos : 0 < s0.t := by
    have hs0 : s0 ∈ stageSorted (ev :: rest) style CAM := by
      rw [hss]; exact List.mem_cons_self _ _
    rw [stageSorted] at hs0
    exact lt_of_lt_of_le hpos (hkeys_ge s0 (List.mem_mergeSort.mp hs0))
  -- the clustered stage opens with the first sorted key's timestamp
  have hchead : (stageClustered (ev :: rest) style CAM).head?.map
      (fun k => k.t) = some s0.t := by
    rw [stageClustered, hss, clusterKeys, absorbFold_nil_cons,
      absorbFold_head_t _ _ _ (by simp)]
    simp
  obtain ⟨c0, hc0, hc0t⟩ := Option.map_eq_some'.mp hchead
  obtain ⟨cl', hcl⟩ : ∃ cl', stageClustered (ev :: rest) style CAM = c0 :: cl' :=
    List.head?_eq_some_iff.mp hc0
  have hc0pos : 0 < c0.t := by rw [hc0t]; exact hs0pos
  -- hence the placeholder is prepended
  have hph : withPlaceholder (stageClustered (ev :: rest) style CAM) =
      ⟨0, 1/2, 1/2, 1, false⟩ :: c0 :: cl' := by
    rw [hcl, withPlaceholder, if_pos hc0pos]
  -- and the dedupe stage opens at t = 0
  have hdhead : (stageDeduped (ev :: rest) style CAM).head?.map
      (fun k => k.t) = some 0 := by
    rw [stageDeduped, hph, absorbFold_nil_cons,
      absorbFold_head_t _ _ _ (by simp)]
    simp
  obtain ⟨d0, hd0, hd0t⟩ := Option.map_eq_some'.mp hdhead
  obtain ⟨ds, hds⟩ : ∃ ds, stageDeduped (ev :: rest) style CAM = d0 :: ds :=
    List.head?_eq_some_iff.mp hd0
  refine ⟨hsorted, ?_, ?_⟩
  · rw [buildCamKeys]
    by_cases hst : style = "aggressive"
    · rw [if_pos hst, hd0]
      simpa using hd0t
    · rw [if_neg hst, hds]
      obtain ⟨r, hr⟩ := sanitizeCuts_cons CAM d0 ds
      rw [hr]
      simpa using hd0t
  · intro hst
    have hdc : ∀ p k : CamKey, dedupeCond style CAM p k = false := by
      intro p k
      rw [hst, dedupeCond]
      simp
    rw [buildCamKeys, if_pos hst, stageDeduped,
      absorbFold_of_false _ hdc, hph]
    simp

/-- Claim C4, witness: a sorted two-event default-style input with the
first positioned event at t=700 > 0; the output is sorted and opens with
t=0, and under the aggressive style the first key is exactly the
placeholder. -/
theorem buildCamKeys_sorted_first_witness :
    (([⟨700, "click", some (1/5), some (1/5), none, none⟩,
        ⟨1400, "press", some (4/5), some (4/5), none, none⟩] :
        List TimelineEvent) =
      ⟨700, "click", some (1/5), some (1/5), none, none⟩ ::
        [⟨1400, "press", some (4/5), some (4/5), none, none⟩] ∧
     (∀ e ∈ [(⟨1400, "press", some (4/5), some (4/5), none, none⟩ :
        TimelineEvent)], (⟨700, "click", some (1/5), some (1/5), none,
          none⟩ : TimelineEvent).t ≤ e.t) ∧
     (0:ℚ) < 700) ∧
    ((∀ (tl : List TimelineEvent) (st : String) (C : CamConfig),
      ((buildCamKeys tl st C).map fun k => k.t).Pairwise (· ≤ ·)) ∧
    ((buildCamKeys [⟨700, "click", some (1/5), some (1/5), none, none⟩,
        ⟨1400, "press", some (4/5), some (4/5), none, none⟩]
      "aggressive" (buildCamConfig "aggressive")).head?.map fun k => k.t) =
        some 0 ∧
    (("aggressive":String) = "aggressive" →
      (buildCamKeys [⟨700, "click", some (1/5), some (1/5), none, none⟩,
          ⟨1400, "press", some (4/5), some (4/5), none, none⟩]
        "aggressive" (buildCamConfig "aggressive")).head? =
        some ⟨0, 1/2, 1/2, 1, false⟩)) :=
  ⟨⟨rfl, by norm_num, by norm_num⟩,
    buildCamKeys_sorted_first _ "aggressive" _ _ _ (1/5) (1/5) rfl
      (by norm_num) rfl rfl (by norm_num)⟩

/-- Claim C10: with a positive clustering window the builder's output has
strictly increasing timestamps, and - once the implicit t=0 placeholder
(when present) is dropped - every adjacent pair of event-derived output
keys is at least `clusterMs` apart in `t`. -/
theorem buildCamKeys_strict_times (timeline : List TimelineEvent)
    (style : String) (CAM : CamConfig) (hc : 0 < CAM.clusterMs) :
    ((buildCamKeys timeline style CAM).map fun k => k.t).Chain' (· < ·) ∧
    ((if hasPlaceholder timeline style CAM = true then
        (buildCamKeys timeline style CAM).tail
      else buildCamKeys timeline style CAM).map fun k => k.t).Chain'
      (fun a b => CAM.clusterMs ≤ b - a) := by
  haveI htrans : IsTrans ℚ (fun a b : ℚ => CAM.clusterMs ≤ b - a) :=
    ⟨fun a b c h1 h2 => by
      have g1 : CAM.clusterMs ≤ b - a := h1
      have g2 : CAM.clusterMs ≤ c - b := h2
      show CAM.clusterMs ≤ c - a
      linarith⟩
  have hgap : ((stageClustered timeline style CAM).map fun k => k.t).Chain'
      (fun a b => CAM.clusterMs ≤ b - a) := by
    rw [stageClustered, clusterKeys]
    exact clusterKeys_chain CAM.clusterMs (stageSorted timeline style CAM) []
      (stageSorted_pairwise timeline style CAM) (by simp) (by simp)
  have hstrictC : ((stageClustered timeline style CAM).map fun k => k.t).Chain'
      (· < ·) :=
    hgap.imp (fun a b h => by linarith)
  cases hcl : stageClustered timeline style CAM with
  | nil =>
    have hded : stageDeduped timeline style CAM = [] := by
      rw [stageDeduped, hcl]; rfl
    have hbk : buildCamKeys timeline style CAM = [] := by
      rw [buildCamKeys, hded]
      by_cases hst : style = "aggressive"
      · rw [if_pos hst]
      · rw [if_neg hst]; simp [sanitizeCuts]
    have hhp : hasPlaceholder timeline style CAM = false := by
      simp [hasPlaceholder, hcl]
    rw [hbk, hhp]
    simp
  | cons c0 cl' =>
    rw [hcl] at hgap hstrictC
    by_cases h0 : 0 < c0.t
    · -- placeholder prepended
      have hph : withPlaceholder (stageClustered timeline style CAM) =
          ⟨0, 1/2, 1/2, 1, false⟩ :: c0 :: cl' := by
        rw [hcl, withPlaceholder, if_pos h0]
      have hhp : hasPlaceholder timeline style CAM = true := by
        simp [hasPlaceholder, hcl, h0]
      have hdhead : (stageDeduped timeline style CAM).head?.map
          (fun k => k.t) = some 0 := by
        rw [stageDeduped, hph, absorbFold_nil_cons,
          absorbFold_head_t _ _ _ (by simp)]
        simp
      obtain ⟨d0, hd0, hd0t⟩ := Option.map_eq_some'.mp hdhead
      obtain ⟨ds, hds⟩ : ∃ ds, stageDeduped timeline style CAM = d0 :: ds :=
        List.head?_eq_some_iff.mp hd0
      have hposall : ∀ q ∈ (c0 :: cl').map (fun k => k.t), 0 < q := by
        intro q hq
        have hpw := (List.chain'_iff_pairwise).mp hstrictC
        rw [List.map_cons] at hq hpw
        rcases List.mem_cons.mp hq with h1 | h1
        · subst h1; exact h0
        · exact lt_trans h0 ((List.pairwise_cons.mp hpw).1 q h1)
      have hds_sub : (ds.map fun k => k.t).Sublist
          ((c0 :: cl').map fun k => k.t) := by
        have hsub := stageDeduped_map_t_sublist timeline style CAM
        rw [hds, hph, List.map_cons, List.map_cons, hd0t] at hsub
        dsimp only at hsub
        exact List.cons_sublist_cons.mp hsub
      have hds_chain : (ds.map fun k => k.t).Chain'
          (fun a b => CAM.clusterMs ≤ b - a) :=
        List.Chain'.sublist hgap hds_sub
      obtain ⟨bs, hbs, hbst⟩ : ∃ bs, buildCamKeys timeline style CAM = d0 :: bs ∧
          (bs.map fun k => k.t) = ds.map fun k => k.t := by
        rw [buildCamKeys]
        by_cases hst : style = "aggressive"
        · rw [if_pos hst, hds]; exact ⟨ds, rfl, rfl⟩
        · rw [if_neg hst, hds]
          obtain ⟨r, hr⟩ := sanitizeCuts_cons CAM d0 ds
          refine ⟨r, hr, ?_⟩
          have hmt := sanitizeCuts_map_t CAM (d0 :: ds)
          rw [hr, List.map_cons, List.map_cons] at hmt
          exact (List.cons.injEq _ _ _ _).mp hmt |>.2
      constructor
      · rw [hbs, List.map_cons, hd0t, List.chain'_cons']
        constructor
        · intro q hq
          refine hposall q (hds_sub.subset ?_)
          rw [← hbst]
          exact List.mem_of_mem_head? hq
        · rw [hbst]
          exact hds_chain.imp (fun a b h => by linarith)
      · rw [hhp, if_pos rfl, hbs]
        simpa [hbst] using hds_chain
    · -- no placeholder
      have hph : withPlaceholder (stageClustered timeline style CAM) =
          c0 :: cl' := by
        rw [hcl, withPlaceholder, if_neg h0]
      have hhp : hasPlaceholder timeline style CAM = false := by
        simp [hasPlaceholder, hcl, h0]
      have hsub : ((stageDeduped timeline style CAM).map fun k => k.t).Sublist
          ((c0 :: cl').map fun k => k.t) := by
        have := stageDeduped_map_t_sublist timeline style CAM
        rwa [hph] at this
      refine ⟨?_, ?_⟩
      · rw [buildCamKeys_map_t]
        exact List.Chain'.sublist hstrictC hsub
      · rw [hhp]
        simp only [Bool.false_eq_true, if_false]
        rw [buildCamKeys_map_t]
        exact List.Chain'.sublist hgap hsub

/-- Claim C10, witness: two default-style events 700ms apart (at least the
600ms window); the output `[t=0 placeholder, t=100, t=800]` is strictly
increasing, and the event-derived tail has its adjacent gap of 700 ≥ 600. -/
theorem buildCamKeys_strict_times_witness :
    (0 : ℚ) < (buildCamConfig "default").clusterMs ∧
    (((buildCamKeys [⟨100, "click", some (1/5), some (1/5), none, none⟩,
        ⟨800, "press", some (4/5), some (4/5), none, none⟩]
        "default" (buildCamConfig "default")).map fun k => k.t).Chain' (· < ·) ∧
    ((if hasPlaceholder [⟨100, "click", some (1/5), some (1/5), none, none⟩,
          ⟨800, "press", some (4/5), some (4/5), none, none⟩]
        "default" (buildCamConfig "default") = true then
        (buildCamKeys [⟨100, "click", some (1/5), some (1/5), none, none⟩,
          ⟨800, "press", some (4/5), some (4/5), none, none⟩]
          "default" (buildCamConfig "default")).tail
      else buildCamKeys [⟨100, "click", some (1/5), some (1/5), none, none⟩,
          ⟨800, "press", some (4/5), some (4/5), none, none⟩]
          "default" (buildCamConfig "default")).map fun k => k.t).Chain'
      (fun a b => (buildCamConfig "default").clusterMs ≤ b - a)) :=
  ⟨by rw [camDefault]; norm_num,
    buildCamKeys_strict_times _ "default" _ (by rw [camDefault]; norm_num)⟩

end Demosnap
